import Mathlib

/-!
Verification of the fs-dkr refresh protocol (`src/src/lib.rs`).

Shallow embedding conventions:

* The secp256k1 scalar field is modelled as `ZMod q` for a prime parameter `q`
  (the code is generic in the curve; all claims are about the algebra, not the
  concrete 256-bit constant).
* Elliptic-curve points are modelled in the exponent: the curve group is cyclic
  of prime order `q` generated by `g`, so `g ^ x ↦ x` is a group isomorphism.
  `Pnt` wraps the discrete logarithm; `Pnt.generatorMul s` is `g * s` from the
  source.  This is an isomorphic presentation of the group, not a simplification.
* The Paillier cryptosystem (external `paillier` crate) is modelled by its
  interface contract: a ciphertext carries the plaintext residue and the
  randomness residue; addition of ciphertexts adds plaintexts and multiplies
  randomness, decryption recovers the plaintext residue.
* Randomness sampling (`BigInt::sample_below`) is modelled by passing the
  sampled values as explicit function arguments.
* Rust `Vec` indexing panics when out of bounds; `collect` is therefore
  embedded with result type `Option (Except FsDkrError (LocalKey q))`, where
  `none` models a panic of the Rust code and `some` a normal return.
-/

namespace FsDkr

/-- An elliptic-curve point, represented by its discrete logarithm with respect
to the fixed generator (exponent model of the prime-order cyclic group). -/
structure Pnt (q : ℕ) where
  log : ZMod q
deriving DecidableEq

/-- `P::generator() * s` from the source: the point `g * s`. -/
def Pnt.generatorMul {q : ℕ} (s : ZMod q) : Pnt q := ⟨s⟩

/-- A Paillier ciphertext, modelled by the interface contract of th/e external
`paillier` crate: `m` is the plaintext residue modulo the public key `N`, `r`
the randomness residue.  Two ciphertexts of the same plaintext with different
randomness are distinct values, as in the real cryptosystem. -/
structure PaillierCt where
  m : ℕ
  r : ℕ
deriving DecidableEq

/-- `Paillier::encrypt_with_chosen_randomness(ek, m, r)`: the public key is its
modulus `ek = N`. -/
def paillierEncryptWCR (ek : ℕ) (m r : ℕ) : PaillierCt := ⟨m % ek, r % ek⟩

/-- `Paillier::encrypt(ek, m)` with internally sampled randomness; the model
fixes the internal randomness (decryption does not depend on it). -/
def paillierEncrypt (ek : ℕ) (m : ℕ) : PaillierCt := ⟨m % ek, 1 % ek⟩

/-- `Paillier::add(ek, c1, c2)`: homomorphic addition — plaintexts add,
randomness multiplies, both modulo `N`. -/
def paillierAdd (ek : ℕ) (c1 c2 : PaillierCt) : PaillierCt :=
  ⟨(c1.m + c2.m) % ek, (c1.r * c2.r) % ek⟩

/-- `Paillier::decrypt(dk, c)`: the decryption key is the same modulus `N`. -/
def paillierDecrypt (dk : ℕ) (c : PaillierCt) : ℕ := c.m % dk

/-- Evaluation of the polynomial with coefficient list `coeffs`
(`coeffs.getD j 0` is the coefficient of `x ^ j`). -/
def polyEval {q : ℕ} (coeffs : List (ZMod q)) (x : ZMod q) : ZMod q :=
  ∑ j in Finset.range coeffs.length, coeffs.getD j 0 * x ^ j

/-- `curv`'s `VerifiableSS<P>`: Shamir parameters plus the Feldman commitment
`[g * a_0, …, g * a_t]` to the polynomial coefficients.  The nested
`ShamirSecretSharing` parameter struct of the source is flattened. -/
structure VerifiableSS (q : ℕ) where
  threshold : ℕ
  share_count : ℕ
  commitments : List (Pnt q)
deriving DecidableEq

/-- `VerifiableSS::share(t, n, secret)` (external `curv` primitive): the `t`
random coefficients are passed explicitly, the secret is the constant
coefficient, the `n` shares are the evaluations at `1, …, n`. -/
def VerifiableSS.share {q : ℕ} (t n : ℕ) (secret : ZMod q) (coeffs : List (ZMod q)) :
    VerifiableSS q × List (ZMod q) :=
  (⟨t, n, (secret :: coeffs).map Pnt.generatorMul⟩,
   (List.range n).map (fun j => polyEval (secret :: coeffs) ((j + 1 : ℕ) : ZMod q)))

/-- `VerifiableSS::validate_share_public(point, index)` (external `curv`
primitive): the Feldman check that `point` equals the evaluation of the
committed polynomial at `index`, written in the exponent model. -/
def VerifiableSS.validate_share_public {q : ℕ} (s : VerifiableSS q) (point : Pnt q)
    (index : ℕ) : Bool :=
  decide (point = Pnt.generatorMul (polyEval (s.commitments.map Pnt.log) ((index : ℕ) : ZMod q)))

/-- Modelled from the spec: `proof_of_fairness.rs` is part of this repository
but not under `src/`.  The statement is `(encryption_key, ciphertext,
committed_point)`, per spec §3. -/
structure FairnessStatement (q : ℕ) where
  ek : ℕ
  c : PaillierCt
  Y : Pnt q
deriving DecidableEq

/-- Modelled from the spec: the fairness witness `(plaintext_share,
encryption_randomness)`. -/
structure FairnessWitness (q : ℕ) where
  x : ZMod q
  r : ℕ
deriving DecidableEq

/-- Modelled from the spec: a fairness proof artifact, modelled as the ideal
proof of knowledge of `(x, r)` with `ciphertext = Enc(ek, x, r)` and
`committed_point = g * x` — the artifact carries the exhibited values, giving
the spec's completeness and soundness exactly. -/
structure FairnessProof (q : ℕ) where
  x : ℕ
  r : ℕ
deriving DecidableEq

/-- Modelled from the spec: `FairnessProof::prove(witness, statement)`.  The
plaintext entering the encryption relation is the scalar's integer
representative, as in `distribute`'s `to_big_int`. -/
def FairnessProof.prove {q : ℕ} (w : FairnessWitness q) (_st : FairnessStatement q) :
    FairnessProof q :=
  ⟨w.x.val, w.r⟩

/-- Modelled from the spec: `FairnessProof::verify(statement)` succeeds exactly
when the statement holds of the exhibited `(x, r)`: the ciphertext is the
Paillier encryption of `x` under `ek` with randomness `r`, and the committed
point is `g * x` in the scalar field. -/
def FairnessProof.verify {q : ℕ} (pf : FairnessProof q) (st : FairnessStatement q) : Bool :=
  decide (st.c = paillierEncryptWCR st.ek pf.x pf.r ∧
          st.Y = Pnt.generatorMul ((pf.x : ℕ) : ZMod q))

/-- Modelled from the spec: `error.rs` is part of this repository but not under
`src/`; the variants and their fields are exactly those constructed in
`lib.rs` (spec §4.4 error taxonomy). -/
inductive FsDkrError : Type
  | PartiesThresholdViolation (threshold : ℕ) (refreshed_keys : ℕ)
  | SizeMismatchError (refresh_message_index : ℕ) (fairness_proof_len : ℕ)
      (points_commited_len : ℕ) (points_encrypted_len : ℕ)
  | DuplicatedRefreshMessage
  | PublicShareValidationError
  | FairnessProof
deriving DecidableEq

/-- The `gg_2020` `Keys` (field `keys_additive` of `LocalKey`), restricted to
the fields `collect`/`distribute` read: the additive secret `u_i` and the
party's own Paillier keypair (`ek`, `dk`), both represented by the modulus. -/
structure Keys (q : ℕ) where
  u_i : ZMod q
  ek : ℕ
  dk : ℕ
deriving DecidableEq

/-- The `gg_2020` `SharedKeys` (field `keys_linear` of `LocalKey`): the linear
share `x_i` and its public counterpart `y`. -/
structure SharedKeys (q : ℕ) where
  x_i : ZMod q
  y : Pnt q
deriving DecidableEq

/-- The `gg_2020` `LocalKey` (external `multi_party_ecdsa` crate), restricted
to the fields read or written by this crate: additive keys, linear share,
the per-party Paillier key registry, and the parameters `i`, `t`, `n`. -/
structure LocalKey (q : ℕ) where
  keys_additive : Keys q
  keys_linear : SharedKeys q
  paillier_key_vec : List ℕ
  i : ℕ
  t : ℕ
  n : ℕ
deriving DecidableEq

/-- The broadcast refresh message, with the field names of the source. -/
structure RefreshMessage (q : ℕ) where
  fairness_proof_vec : List (FairnessProof q)
  coefficients_committed_vec : VerifiableSS q
  points_committed_vec : List (Pnt q)
  points_encrypted_vec : List PaillierCt
deriving DecidableEq

/-- `RefreshMessage::distribute(old_key)` (`lib.rs:30`).  `coeffs` are the `t`
random polynomial coefficients sampled inside `VerifiableSS::share`, `rand i`
is the value of `BigInt::sample_below(&paillier_key_vec[i].n)` at loop index
`i`; both samplings are passed as explicit arguments. -/
def RefreshMessage.distribute {q : ℕ} (old_key : LocalKey q) (coeffs : List (ZMod q))
    (rand : ℕ → ℕ) : RefreshMessage q :=
  let secret := old_key.keys_additive.u_i
  let sr := VerifiableSS.share old_key.t old_key.n secret coeffs
  let vss_scheme := sr.1
  let secret_shares := sr.2
  let points_committed_vec :=
    (List.range secret_shares.length).map (fun i => Pnt.generatorMul (secret_shares.getD i 0))
  let points_encrypted_vec :=
    (List.range secret_shares.length).map (fun i =>
      paillierEncryptWCR (old_key.paillier_key_vec.getD i 0) (secret_shares.getD i 0).val
        (rand i))
  let fairness_proof_vec :=
    (List.range secret_shares.length).map (fun i =>
      FairnessProof.prove
        { x := secret_shares.getD i 0, r := rand i }
        { ek := old_key.paillier_key_vec.getD i 0,
          c := points_encrypted_vec.getD i ⟨0, 0⟩,
          Y := points_committed_vec.getD i ⟨0⟩ })
  { fairness_proof_vec := fairness_proof_vec,
    coefficients_committed_vec := vss_scheme,
    points_committed_vec := points_committed_vec,
    points_encrypted_vec := points_encrypted_vec }

/-- The shape condition of `collect`'s size check (`lib.rs:101`): `true` when
one of the three sequences of `m` differs from the reference length. -/
def sizeBad {q : ℕ} (reference_len : ℕ) (m : RefreshMessage q) : Bool :=
  !(decide (m.fairness_proof_vec.length = reference_len) &&
    decide (m.points_committed_vec.length = reference_len) &&
    decide (m.points_encrypted_vec.length = reference_len))

/-- The size-check loop of `collect` (`lib.rs:101`): first index `k` (counting
from `k0`) whose message fails the shape condition, with the three observed
lengths. -/
def firstSizeMismatchAux {q : ℕ} (reference_len : ℕ) (k0 : ℕ) :
    List (RefreshMessage q) → Option (ℕ × ℕ × ℕ × ℕ)
  | [] => none
  | m :: rest =>
    if sizeBad reference_len m then
      some (k0, m.fairness_proof_vec.length, m.points_committed_vec.length,
        m.points_encrypted_vec.length)
    else firstSizeMismatchAux reference_len (k0 + 1) rest

/-- The duplicate-check loop of `collect` (`lib.rs:120`): whether some message
reappears later in the list (structural equality). -/
def hasDuplicate {q : ℕ} : List (RefreshMessage q) → Bool
  | [] => false
  | m :: rest => (decide (m ∈ rest) || hasDuplicate rest)

/-- The public-share validation stage of `collect` (`lib.rs:126`): does any
pair `(message, commit_index)` fail `validate_share_public` at `commit_index
+ 1`?  `first` is `refresh_messages[0]`, whose `points_committed_vec` length
bounds `commit_index`; all indexing here is in bounds once the size check has
passed.  The source evaluates the pairs in parallel with `rayon`; the fold is
order-independent, so a sequential `any` is the same function. -/
def invalidShares {q : ℕ} (first : RefreshMessage q) (msgs : List (RefreshMessage q)) : Bool :=
  msgs.any (fun m =>
    (List.range first.points_committed_vec.length).any (fun y =>
      !(m.coefficients_committed_vec.validate_share_public
          (m.points_committed_vec.getD y ⟨0⟩) (y + 1))))

/-- One fairness verification of `collect`'s loop (`lib.rs:161`): builds the
statement from the registry key `paillier_key_vec[i]`, ciphertext `i` and
committed point `i` of the message, and verifies proof `i`.  `none` models the
panic of a Rust out-of-bounds index. -/
def fairnessFailAt {q : ℕ} (old_key : LocalKey q) (m : RefreshMessage q) (i : ℕ) :
    Option Bool := do
  let ek ← old_key.paillier_key_vec.get? i
  let c ← m.points_encrypted_vec.get? i
  let Y ← m.points_committed_vec.get? i
  let pf ← m.fairness_proof_vec.get? i
  pure (!(FairnessProof.verify pf ⟨ek, c, Y⟩))

/-- Short-circuiting `any` over `Option Bool`, mirroring a Rust `for` loop with
an early `return Err` whose body may panic (`none`). -/
def optionAnyList {α : Type} (f : α → Option Bool) : List α → Option Bool
  | [] => some false
  | a :: rest =>
    match f a with
    | none => none
    | some true => some true
    | some false => optionAnyList f rest

/-- The ciphertext extraction of `collect` (`lib.rs:180`):
`refresh_messages[k].points_encrypted_vec[idx]` for every message, with `none`
modelling the panic of an out-of-bounds index. -/
def extractOwn {q : ℕ} (idx : ℕ) : List (RefreshMessage q) → Option (List PaillierCt)
  | [] => some []
  | m :: rest =>
    match m.points_encrypted_vec.get? idx with
    | none => none
    | some c =>
      match extractOwn idx rest with
      | none => none
      | some cs => some (c :: cs)

/-- `RefreshMessage::collect(refresh_messages, old_key)` (`lib.rs:85`).
`none` models a panic of the Rust code (out-of-bounds `Vec` index), `some`
a normal return of `FsDkrResult<LocalKey>`. -/
def RefreshMessage.collect {q : ℕ} (refresh_messages : List (RefreshMessage q))
    (old_key : LocalKey q) : Option (Except FsDkrError (LocalKey q)) :=
  if refresh_messages.length ≤ old_key.t then
    some (Except.error (FsDkrError.PartiesThresholdViolation old_key.t refresh_messages.length))
  else
    match refresh_messages.head? with
    | none => none
    | some first =>
      match firstSizeMismatchAux first.fairness_proof_vec.length 0 refresh_messages with
      | some (k, fp, pc, pe) =>
        some (Except.error (FsDkrError.SizeMismatchError k fp pc pe))
      | none =>
        if hasDuplicate refresh_messages then
          some (Except.error FsDkrError.DuplicatedRefreshMessage)
        else if invalidShares first refresh_messages then
          some (Except.error FsDkrError.PublicShareValidationError)
        else
          match optionAnyList
              (fun m => optionAnyList (fairnessFailAt old_key m) (List.range old_key.n))
              refresh_messages with
          | none => none
          | some true => some (Except.error FsDkrError.FairnessProof)
          | some false =>
            match extractOwn (old_key.i - 1) refresh_messages with
            | none => none
            | some ciphertext_vec =>
              let ek := old_key.keys_additive.ek
              let cipher_text_sum :=
                ciphertext_vec.foldl (fun acc x => paillierAdd ek acc x) (paillierEncrypt ek 0)
              let new_share := paillierDecrypt old_key.keys_additive.dk cipher_text_sum
              let new_share_fe : ZMod q := ((new_share : ℕ) : ZMod q)
              some (Except.ok { old_key with
                keys_linear := { x_i := new_share_fe, y := Pnt.generatorMul new_share_fe } })

/-- The value written into `keys_linear.x_i` by a successful `collect`
(`lib.rs:187`): scalar-field conversion of the Paillier decryption of the
homomorphic sum of the extracted ciphertexts, seeded with an encryption of
zero under the collector's own key. -/
def newShareFe {q : ℕ} (key : LocalKey q) (cts : List PaillierCt) : ZMod q :=
  ((paillierDecrypt key.keys_additive.dk
      (cts.foldl (fun acc x => paillierAdd key.keys_additive.ek acc x)
        (paillierEncrypt key.keys_additive.ek 0)) : ℕ) : ZMod q)

/-- `VerifiableSS::reconstruct` (external `curv` primitive) specialised to the
joint secret: Lagrange interpolation at `0` of the share points `pts`
(list of `(node, value)` pairs).  Used only by callers and tests of the
protocol, per spec §6. -/
def lagrangeAt0 {q : ℕ} (pts : List (ZMod q × ZMod q)) : ZMod q :=
  ∑ k in Finset.range pts.length,
    (pts.getD k (0, 0)).2 *
      ∏ l in (Finset.range pts.length).erase k,
        ((pts.getD l (0, 0)).1 * ((pts.getD l (0, 0)).1 - (pts.getD k (0, 0)).1)⁻¹)

instance : Fact (Nat.Prime 11) := ⟨by norm_num⟩

instance {ε α : Type} [DecidableEq ε] [DecidableEq α] : DecidableEq (Except ε α)
  | Except.error a, Except.error b =>
    if h : a = b then isTrue (by rw [h]) else isFalse (by intro hc; cases hc; exact h rfl)
  | Except.error _, Except.ok _ => isFalse (by intro hc; cases hc)
  | Except.ok _, Except.error _ => isFalse (by intro hc; cases hc)
  | Except.ok a, Except.ok b =>
    if h : a = b then isTrue (by rw [h]) else isFalse (by intro hc; cases hc; exact h rfl)

namespace Sample

/-- A concrete two-party ceremony over `ZMod 11` with `t = 1`, `n = 2`,
old Shamir polynomial `8 + 2 X` (joint secret `8 = 3 + 5`), used by the
witness theorems. -/
def sKey1 : LocalKey 11 :=
  { keys_additive := { u_i := 3, ek := 50, dk := 50 },
    keys_linear := { x_i := 10, y := ⟨10⟩ },
    paillier_key_vec := [50, 60], i := 1, t := 1, n := 2 }

def sKey2 : LocalKey 11 :=
  { keys_additive := { u_i := 5, ek := 60, dk := 60 },
    keys_linear := { x_i := 1, y := ⟨1⟩ },
    paillier_key_vec := [50, 60], i := 2, t := 1, n := 2 }

def sOldKeys : ℕ → LocalKey 11 := fun p => if p = 1 then sKey1 else sKey2

def sCoeffs : ℕ → List (ZMod 11) := fun p => if p = 1 then [4] else [6]

def sRand : ℕ → ℕ → ℕ := fun _ _ => 2

def sMsg1 : RefreshMessage 11 := RefreshMessage.distribute sKey1 (sCoeffs 1) (sRand 1)

def sMsg2 : RefreshMessage 11 := RefreshMessage.distribute sKey2 (sCoeffs 2) (sRand 2)

def sMsgs : List (RefreshMessage 11) :=
  (List.range 2).map (fun j =>
    RefreshMessage.distribute (sOldKeys (j + 1)) (sCoeffs (j + 1)) (sRand (j + 1)))

def sNewKey1 : LocalKey 11 := { sKey1 with keys_linear := { x_i := 7, y := ⟨7⟩ } }

def sNewKey2 : LocalKey 11 := { sKey2 with keys_linear := { x_i := 6, y := ⟨6⟩ } }

def sNewKeys : ℕ → LocalKey 11 := fun p => if p = 1 then sNewKey1 else sNewKey2

def sOldPoly : List (ZMod 11) := [8, 2]

/-- A message whose `points_encrypted_vec` has the wrong length (shape
violation). -/
def sBadShapeMsg : RefreshMessage 11 :=
  { RefreshMessage.distribute sKey2 [6] (sRand 2) with points_encrypted_vec := [] }

/-- A message with a tampered committed point, inconsistent with its own VSS
commitment (public-share violation). -/
def sTamperPsvMsg : RefreshMessage 11 :=
  { RefreshMessage.distribute sKey2 [6] (sRand 2) with
    points_committed_vec := [⟨1⟩, ⟨6⟩] }

/-- A message with a tampered first ciphertext: the VSS data is untouched, so
the public-share stage passes, but the fairness proof no longer verifies. -/
def sTamperFairMsg : RefreshMessage 11 :=
  { RefreshMessage.distribute sKey2 [6] (sRand 2) with
    points_encrypted_vec := [⟨1, 1⟩, ⟨6, 2⟩] }

def sShapeMsgs : List (RefreshMessage 11) := [sMsg1, sBadShapeMsg]

def sPsvMsgs : List (RefreshMessage 11) := [sMsg1, sTamperPsvMsg]

def sFairMsgs : List (RefreshMessage 11) := [sMsg1, sTamperFairMsg]

def sDupMsgs : List (RefreshMessage 11) := [sMsg1, sMsg1]

/-- A key for the out-of-bounds counterexample: `t = 0`, `n = 1`. -/
def cexKey : LocalKey 11 :=
  { keys_additive := { u_i := 0, ek := 7, dk := 7 },
    keys_linear := { x_i := 0, y := ⟨0⟩ },
    paillier_key_vec := [7], i := 1, t := 0, n := 1 }

/-- A structurally well-shaped message whose sequences are all empty: the
shape check accepts it (reference length `0`), but the fairness loop then
indexes position `0` of an empty vector. -/
def cexMsg : RefreshMessage 11 :=
  { fairness_proof_vec := [],
    coefficients_committed_vec := { threshold := 0, share_count := 1, commitments := [] },
    points_committed_vec := [],
    points_encrypted_vec := [] }

end Sample

section StageLemmas

variable {q : ℕ}

theorem collect_quorum_fail {msgs : List (RefreshMessage q)} {key : LocalKey q}
    (h : msgs.length ≤ key.t) :
    RefreshMessage.collect msgs key =
      some (Except.error (FsDkrError.PartiesThresholdViolation key.t msgs.length)) := by
  simp [RefreshMessage.collect, h]

theorem collect_size_fail {msgs : List (RefreshMessage q)} {key : LocalKey q}
    {first : RefreshMessage q} {k fp pc pe : ℕ}
    (hq : ¬ msgs.length ≤ key.t) (hf : msgs.head? = some first)
    (hs : firstSizeMismatchAux first.fairness_proof_vec.length 0 msgs = some (k, fp, pc, pe)) :
    RefreshMessage.collect msgs key =
      some (Except.error (FsDkrError.SizeMismatchError k fp pc pe)) := by
  simp [RefreshMessage.collect, hq, hf, hs]

theorem collect_dup_fail {msgs : List (RefreshMessage q)} {key : LocalKey q}
    {first : RefreshMessage q}
    (hq : ¬ msgs.length ≤ key.t) (hf : msgs.head? = some first)
    (hs : firstSizeMismatchAux first.fairness_proof_vec.length 0 msgs = none)
    (hd : hasDuplicate msgs = true) :
    RefreshMessage.collect msgs key =
      some (Except.error FsDkrError.DuplicatedRefreshMessage) := by
  simp [RefreshMessage.collect, hq, hf, hs, hd]

theorem collect_psv_fail {msgs : List (RefreshMessage q)} {key : LocalKey q}
    {first : RefreshMessage q}
    (hq : ¬ msgs.length ≤ key.t) (hf : msgs.head? = some first)
    (hs : firstSizeMismatchAux first.fairness_proof_vec.length 0 msgs = none)
    (hd : hasDuplicate msgs = false)
    (hv : invalidShares first msgs = true) :
    RefreshMessage.collect msgs key =
      some (Except.error FsDkrError.PublicShareValidationError) := by
  simp [RefreshMessage.collect, hq, hf, hs, hd, hv]

theorem collect_fairness_fail {msgs : List (RefreshMessage q)} {key : LocalKey q}
    {first : RefreshMessage q}
    (hq : ¬ msgs.length ≤ key.t) (hf : msgs.head? = some first)
    (hs : firstSizeMismatchAux first.fairness_proof_vec.length 0 msgs = none)
    (hd : hasDuplicate msgs = false)
    (hv : invalidShares first msgs = false)
    (hfair : optionAnyList
        (fun m => optionAnyList (fairnessFailAt key m) (List.range key.n)) msgs = some true) :
    RefreshMessage.collect msgs key = some (Except.error FsDkrError.FairnessProof) := by
  simp [RefreshMessage.collect, hq, hf, hs, hd, hv, hfair]

theorem collect_success {msgs : List (RefreshMessage q)} {key : LocalKey q}
    {first : RefreshMessage q} {cts : List PaillierCt}
    (hq : ¬ msgs.length ≤ key.t) (hf : msgs.head? = some first)
    (hs : firstSizeMismatchAux first.fairness_proof_vec.length 0 msgs = none)
    (hd : hasDuplicate msgs = false)
    (hv : invalidShares first msgs = false)
    (hfair : optionAnyList
        (fun m => optionAnyList (fairnessFailAt key m) (List.range key.n)) msgs = some false)
    (hext : extractOwn (key.i - 1) msgs = some cts) :
    RefreshMessage.collect msgs key =
      some (Except.ok { key with
        keys_linear := { x_i := newShareFe key cts,
                         y := Pnt.generatorMul (newShareFe key cts) } }) := by
  simp [RefreshMessage.collect, hq, hf, hs, hd, hv, hfair, hext, newShareFe]

/-- Inversion: a successful `collect` reached the end of the pipeline, and the
returned key is the input key with only `keys_linear` overwritten by the
decrypted aggregate share and its public point. -/
theorem collect_ok_shape {msgs : List (RefreshMessage q)} {key nk : LocalKey q}
    (h : RefreshMessage.collect msgs key = some (Except.ok nk)) :
    key.t < msgs.length ∧
    ∃ cts, extractOwn (key.i - 1) msgs = some cts ∧
      nk = { key with
        keys_linear := { x_i := newShareFe key cts,
                         y := Pnt.generatorMul (newShareFe key cts) } } := by
  unfold RefreshMessage.collect at h
  by_cases hq : msgs.length ≤ key.t
  · rw [if_pos hq] at h
    simp at h
  · rw [if_neg hq] at h
    refine ⟨Nat.lt_of_not_le hq, ?_⟩
    split at h
    · exact Option.noConfusion h
    · split at h
      · simp at h
      · split at h
        · simp at h
        · split at h
          · simp at h
          · split at h
            · exact Option.noConfusion h
            · simp at h
            · split at h
              · exact Option.noConfusion h
              · rename_i cts hext
                refine ⟨cts, hext, ?_⟩
                simp only [Option.some.injEq, Except.ok.injEq] at h
                exact h.symm

/-- Inversion: every error return of `collect` comes from exactly the pipeline
stage that constructs that error, with all earlier stages passed. -/
theorem collect_error_cases {msgs : List (RefreshMessage q)} {key : LocalKey q} {e : FsDkrError}
    (h : RefreshMessage.collect msgs key = some (Except.error e)) :
    (msgs.length ≤ key.t ∧ e = FsDkrError.PartiesThresholdViolation key.t msgs.length) ∨
    (¬ msgs.length ≤ key.t ∧ ∃ first, msgs.head? = some first ∧
      ((∃ k fp pc pe,
          firstSizeMismatchAux first.fairness_proof_vec.length 0 msgs = some (k, fp, pc, pe) ∧
          e = FsDkrError.SizeMismatchError k fp pc pe) ∨
       (firstSizeMismatchAux first.fairness_proof_vec.length 0 msgs = none ∧
        ((hasDuplicate msgs = true ∧ e = FsDkrError.DuplicatedRefreshMessage) ∨
         (hasDuplicate msgs = false ∧
          ((invalidShares first msgs = true ∧ e = FsDkrError.PublicShareValidationError) ∨
           (invalidShares first msgs = false ∧
            optionAnyList (fun m => optionAnyList (fairnessFailAt key m) (List.range key.n))
              msgs = some true ∧
            e = FsDkrError.FairnessProof))))))) := by
  unfold RefreshMessage.collect at h
  by_cases hq : msgs.length ≤ key.t
  · rw [if_pos hq] at h
    simp only [Option.some.injEq, Except.error.injEq] at h
    exact Or.inl ⟨hq, h.symm⟩
  · rw [if_neg hq] at h
    refine Or.inr ⟨hq, ?_⟩
    split at h
    · exact Option.noConfusion h
    · rename_i first hf
      refine ⟨first, hf, ?_⟩
      split at h
      · rename_i k1 fp1 pc1 pe1 hs
        simp only [Option.some.injEq, Except.error.injEq] at h
        exact Or.inl ⟨k1, fp1, pc1, pe1, hs, h.symm⟩
      · rename_i hs
        refine Or.inr ⟨hs, ?_⟩
        split at h
        · rename_i hd
          simp only [Option.some.injEq, Except.error.injEq] at h
          exact Or.inl ⟨hd, h.symm⟩
        · rename_i hd
          rw [Bool.not_eq_true] at hd
          refine Or.inr ⟨hd, ?_⟩
          split at h
          · rename_i hv
            simp only [Option.some.injEq, Except.error.injEq] at h
            exact Or.inl ⟨hv, h.symm⟩
          · rename_i hv
            rw [Bool.not_eq_true] at hv
            refine Or.inr ⟨hv, ?_⟩
            split at h
            · exact Option.noConfusion h
            · rename_i hfair
              simp only [Option.some.injEq, Except.error.injEq] at h
              exact ⟨hfair, h.symm⟩
            · split at h
              · exact Option.noConfusion h
              · simp at h

end StageLemmas

section StageCharacterizations

variable {q : ℕ}

theorem sizeBad_eq_false_iff {ref : ℕ} {m : RefreshMessage q} :
    sizeBad ref m = false ↔
      (m.fairness_proof_vec.length = ref ∧ m.points_committed_vec.length = ref ∧
       m.points_encrypted_vec.length = ref) := by
  simp [sizeBad, and_assoc]

theorem firstSizeMismatchAux_eq_none_iff {ref k0 : ℕ} {l : List (RefreshMessage q)} :
    firstSizeMismatchAux ref k0 l = none ↔ ∀ m ∈ l, sizeBad ref m = false := by
  induction l generalizing k0 with
  | nil => simp [firstSizeMismatchAux]
  | cons m rest ih =>
    by_cases hm : sizeBad ref m
    · simp [firstSizeMismatchAux, hm]
    · rw [Bool.not_eq_true] at hm
      simp [firstSizeMismatchAux, hm, ih]

theorem firstSizeMismatchAux_eq_some {ref k0 j fp pc pe : ℕ} {l : List (RefreshMessage q)}
    (h : firstSizeMismatchAux ref k0 l = some (j, fp, pc, pe)) :
    k0 ≤ j ∧ ∃ m, l.get? (j - k0) = some m ∧ sizeBad ref m = true ∧
      fp = m.fairness_proof_vec.length ∧ pc = m.points_committed_vec.length ∧
      pe = m.points_encrypted_vec.length := by
  induction l generalizing k0 with
  | nil => exact Option.noConfusion h
  | cons m rest ih =>
    by_cases hm : sizeBad ref m
    · rw [firstSizeMismatchAux, if_pos hm] at h
      simp only [Option.some.injEq, Prod.mk.injEq] at h
      obtain ⟨h0, h1, h2, h3⟩ := h
      subst h0
      exact ⟨le_refl _, m, by simp, hm, h1.symm, h2.symm, h3.symm⟩
    · rw [firstSizeMismatchAux, if_neg hm] at h
      obtain ⟨hk, mm, hget, hbad, h1, h2, h3⟩ := ih h
      refine ⟨by omega, mm, ?_, hbad, h1, h2, h3⟩
      have : j - k0 = (j - (k0 + 1)) + 1 := by omega
      rw [this]
      simpa using hget

theorem firstSizeMismatchAux_ne_none {ref : ℕ} {l : List (RefreshMessage q)}
    (h : ∃ m ∈ l, sizeBad ref m = true) :
    ∃ j fp pc pe, firstSizeMismatchAux ref 0 l = some (j, fp, pc, pe) := by
  rcases hh : firstSizeMismatchAux ref 0 l with _ | ⟨j, fp, pc, pe⟩
  · rw [firstSizeMismatchAux_eq_none_iff] at hh
    obtain ⟨m, hmem, hbad⟩ := h
    rw [hh m hmem] at hbad
    exact Bool.noConfusion hbad
  · exact ⟨j, fp, pc, pe, rfl⟩

theorem hasDuplicate_eq_true_iff {l : List (RefreshMessage q)} :
    hasDuplicate l = true ↔ ¬ l.Nodup := by
  induction l with
  | nil => simp [hasDuplicate]
  | cons m rest ih =>
    rw [hasDuplicate, List.nodup_cons]
    by_cases hm : m ∈ rest
    · simp [hm]
    · simp [hm, ih]

theorem invalidShares_eq_true_iff {first : RefreshMessage q} {msgs : List (RefreshMessage q)} :
    invalidShares first msgs = true ↔
      ∃ m ∈ msgs, ∃ y < first.points_committed_vec.length,
        m.coefficients_committed_vec.validate_share_public
          (m.points_committed_vec.getD y ⟨0⟩) (y + 1) = false := by
  simp [invalidShares, List.any_eq_true, List.mem_range]

theorem optionAnyList_eq_some_false_iff {α : Type} {f : α → Option Bool} {l : List α} :
    optionAnyList f l = some false ↔ ∀ a ∈ l, f a = some false := by
  induction l with
  | nil => simp [optionAnyList]
  | cons a rest ih =>
    rw [optionAnyList]
    rcases hfa : f a with _ | b
    · simp [hfa]
    · rcases b with _ | _
      · simp [hfa, ih]
      · simp [hfa]

theorem optionAnyList_eq_some_true_iff {α : Type} {f : α → Option Bool} {l : List α}
    (htot : ∀ a ∈ l, f a ≠ none) :
    optionAnyList f l = some true ↔ ∃ a ∈ l, f a = some true := by
  induction l with
  | nil => simp [optionAnyList]
  | cons a rest ih =>
    rw [optionAnyList]
    rcases hfa : f a with _ | b
    · exact absurd hfa (htot a (by simp))
    · rcases b with _ | _
      · simp only [hfa]
        rw [ih (fun x hx => htot x (by simp [hx]))]
        simp [hfa]
      · simp [hfa]

theorem optionAnyList_ne_none {α : Type} {f : α → Option Bool} {l : List α}
    (htot : ∀ a ∈ l, f a ≠ none) :
    optionAnyList f l ≠ none := by
  induction l with
  | nil => simp [optionAnyList]
  | cons a rest ih =>
    rw [optionAnyList]
    rcases hfa : f a with _ | b
    · exact absurd hfa (htot a (by simp))
    · rcases b with _ | _
      · exact ih (fun x hx => htot x (by simp [hx]))
      · simp

theorem fairnessFailAt_eq_some {key : LocalKey q} {m : RefreshMessage q} {i : ℕ}
    (h1 : i < key.paillier_key_vec.length) (h2 : i < m.points_encrypted_vec.length)
    (h3 : i < m.points_committed_vec.length) (h4 : i < m.fairness_proof_vec.length) :
    fairnessFailAt key m i =
      some (!(FairnessProof.verify (m.fairness_proof_vec.getD i ⟨0, 0⟩)
        ⟨key.paillier_key_vec.getD i 0, m.points_encrypted_vec.getD i ⟨0, 0⟩,
         m.points_committed_vec.getD i ⟨0⟩⟩)) := by
  rw [fairnessFailAt]
  rw [List.get?_eq_get h1, List.get?_eq_get h2, List.get?_eq_get h3, List.get?_eq_get h4]
  simp [Option.bind, List.getD_eq_getElem, h1, h2, h3, h4, List.get_eq_getElem]

theorem get?_eq_some_getD {α : Type} {l : List α} {idx : ℕ} (d : α) (h : idx < l.length) :
    l.get? idx = some (l.getD idx d) := by
  rw [List.get?_eq_get h]
  simp [List.getD_eq_getElem, h, List.get_eq_getElem]

theorem getD_range_map {α : Type} {n j : ℕ} (f : ℕ → α) (d : α) (h : j < n) :
    ((List.range n).map f).getD j d = f j := by
  have hlen : j < ((List.range n).map f).length := by simp [h]
  rw [List.getD_eq_getElem _ _ hlen]
  simp [h]

theorem extractOwn_eq_some_map {idx : ℕ} {l : List (RefreshMessage q)}
    {g : RefreshMessage q → PaillierCt}
    (h : ∀ m ∈ l, m.points_encrypted_vec.get? idx = some (g m)) :
    extractOwn idx l = some (l.map g) := by
  induction l with
  | nil => simp [extractOwn]
  | cons m rest ih =>
    rw [extractOwn, h m (by simp), ih (fun x hx => h x (by simp [hx]))]
    simp

theorem vss_share_getD (t n : ℕ) (secret : ZMod q) (coeffs : List (ZMod q)) {j : ℕ}
    (hj : j < n) :
    (VerifiableSS.share t n secret coeffs).2.getD j 0 =
      polyEval (secret :: coeffs) ((j + 1 : ℕ) : ZMod q) := by
  show ((List.range n).map _).getD j 0 = _
  rw [getD_range_map _ _ hj]

theorem distribute_points_encrypted_get (key : LocalKey q) (coeffs : List (ZMod q))
    (rand : ℕ → ℕ) {j : ℕ} (hj : j < key.n) :
    (RefreshMessage.distribute key coeffs rand).points_encrypted_vec.get? j =
      some (paillierEncryptWCR (key.paillier_key_vec.getD j 0)
        ((VerifiableSS.share key.t key.n key.keys_additive.u_i coeffs).2.getD j 0).val
        (rand j)) := by
  have hlen : (VerifiableSS.share key.t key.n key.keys_additive.u_i coeffs).2.length = key.n := by
    simp [VerifiableSS.share]
  have hpe : (RefreshMessage.distribute key coeffs rand).points_encrypted_vec =
      (List.range (VerifiableSS.share key.t key.n key.keys_additive.u_i coeffs).2.length).map
        (fun i => paillierEncryptWCR (key.paillier_key_vec.getD i 0)
          ((VerifiableSS.share key.t key.n key.keys_additive.u_i coeffs).2.getD i 0).val
          (rand i)) := rfl
  rw [hpe, hlen, List.get?_map, List.get?_range hj]
  rfl

theorem extractOwn_map_of_range {idx : ℕ} (dl : ℕ → RefreshMessage q) (c : ℕ → PaillierCt)
    (l : List ℕ) (h : ∀ j ∈ l, (dl j).points_encrypted_vec.get? idx = some (c j)) :
    extractOwn idx (l.map dl) = some (l.map c) := by
  induction l with
  | nil => simp [extractOwn]
  | cons a tl ih =>
    rw [List.map_cons, List.map_cons, extractOwn, h a (by simp),
      ih (fun j hj => h j (by simp [hj]))]

end StageCharacterizations

section Claims

variable {q : ℕ}

/-- C3: for every old key with threshold `t` and every list of refresh
messages, `collect` returns the threshold-violation error — carrying the
configured threshold and the number of messages received — exactly when the
list's length is at most `t`; with strictly more than `t` messages the quorum
gate is passed and no threshold-violation error is ever returned. -/
theorem collect_threshold_violation_iff (msgs : List (RefreshMessage q)) (key : LocalKey q) :
    (msgs.length ≤ key.t →
      RefreshMessage.collect msgs key =
        some (Except.error (FsDkrError.PartiesThresholdViolation key.t msgs.length))) ∧
    ((∃ a b, RefreshMessage.collect msgs key =
        some (Except.error (FsDkrError.PartiesThresholdViolation a b))) ↔
      msgs.length ≤ key.t) := by
  refine ⟨fun h => collect_quorum_fail h,
    ⟨?_, fun h => ⟨key.t, msgs.length, collect_quorum_fail h⟩⟩⟩
  rintro ⟨a, b, h⟩
  rcases collect_error_cases h with ⟨hq, _⟩ | ⟨hq, first, hf, hcase⟩
  · exact hq
  · exfalso
    rcases hcase with ⟨k, fp, pc, pe, _, he⟩ | ⟨_, hcase⟩
    · exact FsDkrError.noConfusion he
    rcases hcase with ⟨_, he⟩ | ⟨_, hcase⟩
    · exact FsDkrError.noConfusion he
    rcases hcase with ⟨_, he⟩ | ⟨_, _, he⟩
    · exact FsDkrError.noConfusion he
    · exact FsDkrError.noConfusion he

theorem collect_threshold_violation_iff_witness :
    (([] : List (RefreshMessage 11)).length ≤ Sample.cexKey.t) ∧
    RefreshMessage.collect ([] : List (RefreshMessage 11)) Sample.cexKey =
      some (Except.error (FsDkrError.PartiesThresholdViolation 0 0)) :=
  ⟨by decide,
   (collect_threshold_violation_iff ([] : List (RefreshMessage 11)) Sample.cexKey).1 (by decide)⟩

/-- C4: once the quorum check has passed, `collect` returns a size-mismatch
error exactly when some message's three sequence lengths are not all equal to
the first message's fairness-proof length; the reported index carries that
offending message and the three lengths reported are its actual lengths. -/
theorem collect_size_mismatch_iff (msgs : List (RefreshMessage q)) (key : LocalKey q)
    (first : RefreshMessage q) (hq : key.t < msgs.length) (hf : msgs.head? = some first) :
    (∀ j fp pc pe,
        RefreshMessage.collect msgs key =
          some (Except.error (FsDkrError.SizeMismatchError j fp pc pe)) →
        ∃ m, msgs.get? j = some m ∧
          sizeBad first.fairness_proof_vec.length m = true ∧
          fp = m.fairness_proof_vec.length ∧ pc = m.points_committed_vec.length ∧
          pe = m.points_encrypted_vec.length) ∧
    ((∃ m ∈ msgs, sizeBad first.fairness_proof_vec.length m = true) ↔
      ∃ j fp pc pe, RefreshMessage.collect msgs key =
        some (Except.error (FsDkrError.SizeMismatchError j fp pc pe))) := by
  have hq' : ¬ msgs.length ≤ key.t := by omega
  have hfwd : ∀ j fp pc pe,
      RefreshMessage.collect msgs key =
        some (Except.error (FsDkrError.SizeMismatchError j fp pc pe)) →
      ∃ m, msgs.get? j = some m ∧
        sizeBad first.fairness_proof_vec.length m = true ∧
        fp = m.fairness_proof_vec.length ∧ pc = m.points_committed_vec.length ∧
        pe = m.points_encrypted_vec.length := by
    intro j fp pc pe h
    rcases collect_error_cases h with ⟨hle, _⟩ | ⟨_, first2, hf2, hcase⟩
    · omega
    · rw [hf] at hf2
      cases hf2
      rcases hcase with ⟨k, fp1, pc1, pe1, hs, he⟩ | ⟨_, hcase⟩
      · obtain ⟨rfl, rfl, rfl, rfl⟩ :
            j = k ∧ fp = fp1 ∧ pc = pc1 ∧ pe = pe1 := by
          cases he
          exact ⟨rfl, rfl, rfl, rfl⟩
        obtain ⟨-, m, hget, hbad, h1, h2, h3⟩ := firstSizeMismatchAux_eq_some hs
        rw [Nat.sub_zero] at hget
        exact ⟨m, hget, hbad, h1, h2, h3⟩
      · exfalso
        rcases hcase with ⟨-, he⟩ | ⟨-, (⟨-, he⟩ | ⟨-, -, he⟩)⟩
        · exact FsDkrError.noConfusion he
        · exact FsDkrError.noConfusion he
        · exact FsDkrError.noConfusion he
  refine ⟨hfwd, ⟨?_, ?_⟩⟩
  · rintro hbad
    obtain ⟨j, fp, pc, pe, hs⟩ := firstSizeMismatchAux_ne_none hbad
    exact ⟨j, fp, pc, pe, collect_size_fail hq' hf hs⟩
  · rintro ⟨j, fp, pc, pe, h⟩
    obtain ⟨m, hget, hbad, -⟩ := hfwd j fp pc pe h
    exact ⟨m, List.get?_mem hget, hbad⟩

theorem collect_size_mismatch_iff_witness :
    (Sample.sKey1.t < Sample.sShapeMsgs.length) ∧
    (Sample.sShapeMsgs.head? = some Sample.sMsg1) ∧
    (∃ j fp pc pe, RefreshMessage.collect Sample.sShapeMsgs Sample.sKey1 =
      some (Except.error (FsDkrError.SizeMismatchError j fp pc pe))) :=
  ⟨by decide, by decide,
   (collect_size_mismatch_iff Sample.sShapeMsgs Sample.sKey1 Sample.sMsg1
      (by decide) (by decide)).2.mp (by decide)⟩

/-- C5: once the quorum and shape checks have passed, `collect` returns the
duplicate-message error exactly when two structurally identical messages occur
at distinct positions of the input list (`¬ Nodup`); pairwise distinct
messages pass the duplicate check. -/
theorem collect_duplicate_iff (msgs : List (RefreshMessage q)) (key : LocalKey q)
    (first : RefreshMessage q) (hq : key.t < msgs.length) (hf : msgs.head? = some first)
    (hs : firstSizeMismatchAux first.fairness_proof_vec.length 0 msgs = none) :
    RefreshMessage.collect msgs key =
        some (Except.error FsDkrError.DuplicatedRefreshMessage) ↔
      ¬ msgs.Nodup := by
  constructor
  · intro h
    rcases collect_error_cases h with ⟨hle, _⟩ | ⟨_, first2, hf2, hcase⟩
    · omega
    · rcases hcase with ⟨k, fp, pc, pe, _, he⟩ | ⟨_, hcase⟩
      · exact FsDkrError.noConfusion he
      rcases hcase with ⟨hd, _⟩ | ⟨_, hcase⟩
      · exact hasDuplicate_eq_true_iff.mp hd
      rcases hcase with ⟨_, he⟩ | ⟨_, _, he⟩
      · exact FsDkrError.noConfusion he
      · exact FsDkrError.noConfusion he
  · intro h
    exact collect_dup_fail (by omega) hf hs (hasDuplicate_eq_true_iff.mpr h)

theorem collect_duplicate_iff_witness :
    (Sample.sKey1.t < Sample.sDupMsgs.length) ∧
    RefreshMessage.collect Sample.sDupMsgs Sample.sKey1 =
      some (Except.error FsDkrError.DuplicatedRefreshMessage) :=
  ⟨by decide,
   (collect_duplicate_iff Sample.sDupMsgs Sample.sKey1 Sample.sMsg1
      (by decide) (by decide) (by decide)).mpr (by decide)⟩

/-- C6: once the quorum, shape and duplicate checks have passed, `collect`
returns the public-share-validation error exactly when some pair
`(message, target index)` fails the Feldman check of the message's committed
point at that index against the message's own VSS commitment at position
`index + 1`; if every pair validates, the stage passes.  No message is
partially accepted: a single failing pair produces the error for the whole
call. -/
theorem collect_public_share_validation_iff (msgs : List (RefreshMessage q))
    (key : LocalKey q) (first : RefreshMessage q)
    (hq : key.t < msgs.length) (hf : msgs.head? = some first)
    (hs : firstSizeMismatchAux first.fairness_proof_vec.length 0 msgs = none)
    (hnd : msgs.Nodup) :
    RefreshMessage.collect msgs key =
        some (Except.error FsDkrError.PublicShareValidationError) ↔
      ∃ m ∈ msgs, ∃ y < first.points_committed_vec.length,
        m.coefficients_committed_vec.validate_share_public
          (m.points_committed_vec.getD y ⟨0⟩) (y + 1) = false := by
  have hd : hasDuplicate msgs = false := by
    rcases hh : hasDuplicate msgs with _ | _
    · rfl
    · exact absurd (hasDuplicate_eq_true_iff.mp hh) (not_not_intro hnd)
  constructor
  · intro h
    rcases collect_error_cases h with ⟨hle, _⟩ | ⟨_, first2, hf2, hcase⟩
    · omega
    · rw [hf] at hf2
      cases hf2
      rcases hcase with ⟨k, fp, pc, pe, _, he⟩ | ⟨_, hcase⟩
      · exact FsDkrError.noConfusion he
      rcases hcase with ⟨_, he⟩ | ⟨_, hcase⟩
      · exact FsDkrError.noConfusion he
      rcases hcase with ⟨hv, _⟩ | ⟨_, _, he⟩
      · exact invalidShares_eq_true_iff.mp hv
      · exact FsDkrError.noConfusion he
  · intro h
    exact collect_psv_fail (by omega) hf hs hd (invalidShares_eq_true_iff.mpr h)

theorem collect_public_share_validation_iff_witness :
    (Sample.sKey1.t < Sample.sPsvMsgs.length) ∧ Sample.sPsvMsgs.Nodup ∧
    RefreshMessage.collect Sample.sPsvMsgs Sample.sKey1 =
      some (Except.error FsDkrError.PublicShareValidationError) :=
  ⟨by decide, by decide,
   (collect_public_share_validation_iff Sample.sPsvMsgs Sample.sKey1 Sample.sMsg1
      (by decide) (by decide) (by decide) (by decide)).mpr (by decide)⟩

/-- C8: a successful `collect` returns the input key with only the linear
share and public share overwritten: the party index `i`, threshold `t`, party
count `n`, the Paillier key registry and the party's own Paillier keypair are
carried over unchanged.  (Error returns carry no key at all — the embedding
returns the new key functionally, per spec §9 the all-or-nothing reading —
so no partial update is observable on any failure path.) -/
theorem collect_frame (msgs : List (RefreshMessage q)) (key nk : LocalKey q)
    (h : RefreshMessage.collect msgs key = some (Except.ok nk)) :
    nk.i = key.i ∧ nk.t = key.t ∧ nk.n = key.n ∧
    nk.paillier_key_vec = key.paillier_key_vec ∧
    nk.keys_additive = key.keys_additive := by
  obtain ⟨-, cts, -, hnk⟩ := collect_ok_shape h
  subst hnk
  exact ⟨rfl, rfl, rfl, rfl, rfl⟩

theorem collect_frame_witness :
    RefreshMessage.collect Sample.sMsgs Sample.sKey1 = some (Except.ok Sample.sNewKey1) ∧
    (Sample.sNewKey1.i = Sample.sKey1.i ∧ Sample.sNewKey1.t = Sample.sKey1.t ∧
     Sample.sNewKey1.n = Sample.sKey1.n ∧
     Sample.sNewKey1.paillier_key_vec = Sample.sKey1.paillier_key_vec ∧
     Sample.sNewKey1.keys_additive = Sample.sKey1.keys_additive) :=
  ⟨by decide, collect_frame Sample.sMsgs Sample.sKey1 Sample.sNewKey1 (by decide)⟩

/-- C7: once the quorum, shape, duplicate and public-share stages have passed,
and the sequence lengths cover the loop ranges (reference length and registry
at least `n`), `collect` returns the fairness-proof error exactly when some
message `k` has a target index `i < n` at which the embedded proof at index
`i` fails to verify against the statement formed from the collector's
registered Paillier key `paillier_key_vec[i]` (party `i + 1`), the message's
ciphertext at index `i` and its committed point at index `i`; if every
verification succeeds, the stage passes.  (The fairness verifier itself is
modelled from the spec, `proof_of_fairness.rs` being outside `src/`.) -/
theorem collect_fairness_proof_iff (msgs : List (RefreshMessage q)) (key : LocalKey q)
    (first : RefreshMessage q)
    (hq : key.t < msgs.length) (hf : msgs.head? = some first)
    (hs : firstSizeMismatchAux first.fairness_proof_vec.length 0 msgs = none)
    (hnd : msgs.Nodup)
    (hv : invalidShares first msgs = false)
    (hnref : key.n ≤ first.fairness_proof_vec.length)
    (hreg : key.n ≤ key.paillier_key_vec.length) :
    RefreshMessage.collect msgs key = some (Except.error FsDkrError.FairnessProof) ↔
      ∃ m ∈ msgs, ∃ i < key.n,
        FairnessProof.verify (m.fairness_proof_vec.getD i ⟨0, 0⟩)
          ⟨key.paillier_key_vec.getD i 0, m.points_encrypted_vec.getD i ⟨0, 0⟩,
           m.points_committed_vec.getD i ⟨0⟩⟩ = false := by
  have hlen : ∀ m ∈ msgs,
      m.fairness_proof_vec.length = first.fairness_proof_vec.length ∧
      m.points_committed_vec.length = first.fairness_proof_vec.length ∧
      m.points_encrypted_vec.length = first.fairness_proof_vec.length := by
    intro m hm
    exact sizeBad_eq_false_iff.mp (firstSizeMismatchAux_eq_none_iff.mp hs m hm)
  have hstep : ∀ m ∈ msgs, ∀ i < key.n,
      fairnessFailAt key m i =
        some (!(FairnessProof.verify (m.fairness_proof_vec.getD i ⟨0, 0⟩)
          ⟨key.paillier_key_vec.getD i 0, m.points_encrypted_vec.getD i ⟨0, 0⟩,
           m.points_committed_vec.getD i ⟨0⟩⟩)) := by
    intro m hm i hi
    obtain ⟨h1, h2, h3⟩ := hlen m hm
    exact fairnessFailAt_eq_some (by omega) (by omega) (by omega) (by omega)
  have htot : ∀ m ∈ msgs,
      optionAnyList (fairnessFailAt key m) (List.range key.n) ≠ none := by
    intro m hm
    refine optionAnyList_ne_none ?_
    intro i hi
    rw [hstep m hm i (List.mem_range.mp hi)]
    exact Option.noConfusion
  have hchar : optionAnyList
        (fun m => optionAnyList (fairnessFailAt key m) (List.range key.n)) msgs = some true ↔
      ∃ m ∈ msgs, ∃ i < key.n,
        FairnessProof.verify (m.fairness_proof_vec.getD i ⟨0, 0⟩)
          ⟨key.paillier_key_vec.getD i 0, m.points_encrypted_vec.getD i ⟨0, 0⟩,
           m.points_committed_vec.getD i ⟨0⟩⟩ = false := by
    rw [optionAnyList_eq_some_true_iff htot]
    constructor
    · rintro ⟨m, hm, hone⟩
      rw [optionAnyList_eq_some_true_iff (fun i hi => by
        rw [hstep m hm i (List.mem_range.mp hi)]; exact Option.noConfusion)] at hone
      obtain ⟨i, hi, hfi⟩ := hone
      rw [hstep m hm i (List.mem_range.mp hi)] at hfi
      refine ⟨m, hm, i, List.mem_range.mp hi, ?_⟩
      have := Option.some.inj hfi
      rcases hb : FairnessProof.verify (m.fairness_proof_vec.getD i ⟨0, 0⟩)
          ⟨key.paillier_key_vec.getD i 0, m.points_encrypted_vec.getD i ⟨0, 0⟩,
           m.points_committed_vec.getD i ⟨0⟩⟩ with _ | _
      · rfl
      · rw [hb] at this
        exact Bool.noConfusion this
    · rintro ⟨m, hm, i, hi, hfail⟩
      refine ⟨m, hm, ?_⟩
      rw [optionAnyList_eq_some_true_iff (fun i2 hi2 => by
        rw [hstep m hm i2 (List.mem_range.mp hi2)]; exact Option.noConfusion)]
      refine ⟨i, List.mem_range.mpr hi, ?_⟩
      rw [hstep m hm i hi, hfail]
      rfl
  have hd : hasDuplicate msgs = false := by
    rcases hh : hasDuplicate msgs with _ | _
    · rfl
    · exact absurd (hasDuplicate_eq_true_iff.mp hh) (not_not_intro hnd)
  constructor
  · intro h
    rcases collect_error_cases h with ⟨hle, _⟩ | ⟨_, first2, hf2, hcase⟩
    · omega
    · rw [hf] at hf2
      cases hf2
      rcases hcase with ⟨k, fp, pc, pe, _, he⟩ | ⟨_, hcase⟩
      · exact FsDkrError.noConfusion he
      rcases hcase with ⟨_, he⟩ | ⟨_, hcase⟩
      · exact FsDkrError.noConfusion he
      rcases hcase with ⟨_, he⟩ | ⟨_, hfair, _⟩
      · exact FsDkrError.noConfusion he
      · exact hchar.mp hfair
  · intro h
    exact collect_fairness_fail (by omega) hf hs hd hv (hchar.mpr h)

theorem collect_fairness_proof_iff_witness :
    (Sample.sKey1.t < Sample.sFairMsgs.length) ∧ Sample.sFairMsgs.Nodup ∧
    (invalidShares Sample.sMsg1 Sample.sFairMsgs = false) ∧
    RefreshMessage.collect Sample.sFairMsgs Sample.sKey1 =
      some (Except.error FsDkrError.FairnessProof) :=
  ⟨by decide, by decide, by decide,
   (collect_fairness_proof_iff Sample.sFairMsgs Sample.sKey1 Sample.sMsg1
      (by decide) (by decide) (by decide) (by decide) (by decide)
      (by decide) (by decide)).mpr (by decide)⟩

/-- C2: every successful `collect` writes into the returned key's linear
share exactly the scalar-field conversion of the Paillier decryption, under
the collector's own private key, of the homomorphic sum — seeded with an
encryption of zero under the collector's own public key — of the ciphertexts
extracted at zero-based index `i - 1` from every message of the input set
(`extractOwn`), and writes the generator times that scalar into the public
share. -/
theorem collect_ok_new_share (msgs : List (RefreshMessage q)) (key nk : LocalKey q)
    (h : RefreshMessage.collect msgs key = some (Except.ok nk)) :
    ∃ cts, extractOwn (key.i - 1) msgs = some cts ∧
      nk.keys_linear.x_i =
        ((paillierDecrypt key.keys_additive.dk
            (cts.foldl (fun acc x => paillierAdd key.keys_additive.ek acc x)
              (paillierEncrypt key.keys_additive.ek 0)) : ℕ) : ZMod q) ∧
      nk.keys_linear.y = Pnt.generatorMul nk.keys_linear.x_i := by
  obtain ⟨-, cts, hext, hnk⟩ := collect_ok_shape h
  subst hnk
  exact ⟨cts, hext, rfl, rfl⟩

theorem collect_ok_new_share_witness :
    RefreshMessage.collect Sample.sMsgs Sample.sKey1 = some (Except.ok Sample.sNewKey1) ∧
    ∃ cts, extractOwn (Sample.sKey1.i - 1) Sample.sMsgs = some cts ∧
      Sample.sNewKey1.keys_linear.x_i =
        ((paillierDecrypt Sample.sKey1.keys_additive.dk
            (cts.foldl (fun acc x => paillierAdd Sample.sKey1.keys_additive.ek acc x)
              (paillierEncrypt Sample.sKey1.keys_additive.ek 0)) : ℕ) : ZMod 11) ∧
      Sample.sNewKey1.keys_linear.y = Pnt.generatorMul Sample.sNewKey1.keys_linear.x_i :=
  ⟨by decide, collect_ok_new_share Sample.sMsgs Sample.sKey1 Sample.sNewKey1 (by decide)⟩

/-- C9: `distribute` emits a message whose three per-target sequences all have
length `n`; the committed point at each index `j` is the generator times the
`j`-th VSS share of the dealer's additive secret, and the ciphertext at index
`j` is the Paillier encryption of that share's integer representative under
party `j + 1`'s registered public key with the freshly sampled randomness
`rand j`. -/
theorem distribute_shape (key : LocalKey q) (coeffs : List (ZMod q)) (rand : ℕ → ℕ)
    (_hreg : key.n ≤ key.paillier_key_vec.length) :
    (RefreshMessage.distribute key coeffs rand).fairness_proof_vec.length = key.n ∧
    (RefreshMessage.distribute key coeffs rand).points_committed_vec.length = key.n ∧
    (RefreshMessage.distribute key coeffs rand).points_encrypted_vec.length = key.n ∧
    ∀ j < key.n,
      (RefreshMessage.distribute key coeffs rand).points_committed_vec.getD j ⟨0⟩ =
        Pnt.generatorMul
          ((VerifiableSS.share key.t key.n key.keys_additive.u_i coeffs).2.getD j 0) ∧
      (RefreshMessage.distribute key coeffs rand).points_encrypted_vec.getD j ⟨0, 0⟩ =
        paillierEncryptWCR (key.paillier_key_vec.getD j 0)
          ((VerifiableSS.share key.t key.n key.keys_additive.u_i coeffs).2.getD j 0).val
          (rand j) := by
  have hlen : (VerifiableSS.share key.t key.n key.keys_additive.u_i coeffs).2.length = key.n := by
    simp [VerifiableSS.share]
  have hpc : (RefreshMessage.distribute key coeffs rand).points_committed_vec =
      (List.range (VerifiableSS.share key.t key.n key.keys_additive.u_i coeffs).2.length).map
        (fun i => Pnt.generatorMul
          ((VerifiableSS.share key.t key.n key.keys_additive.u_i coeffs).2.getD i 0)) := rfl
  have hpe : (RefreshMessage.distribute key coeffs rand).points_encrypted_vec =
      (List.range (VerifiableSS.share key.t key.n key.keys_additive.u_i coeffs).2.length).map
        (fun i => paillierEncryptWCR (key.paillier_key_vec.getD i 0)
          ((VerifiableSS.share key.t key.n key.keys_additive.u_i coeffs).2.getD i 0).val
          (rand i)) := rfl
  refine ⟨by simp [RefreshMessage.distribute, hlen], by simp [RefreshMessage.distribute, hlen],
    by simp [RefreshMessage.distribute, hlen], ?_⟩
  intro j hj
  constructor
  · rw [hpc, hlen, getD_range_map _ _ hj]
  · rw [hpe, hlen, getD_range_map _ _ hj]

theorem distribute_shape_witness :
    (Sample.sKey1.n ≤ Sample.sKey1.paillier_key_vec.length) ∧
    ((RefreshMessage.distribute Sample.sKey1 (Sample.sCoeffs 1)
        (Sample.sRand 1)).fairness_proof_vec.length = Sample.sKey1.n ∧
     (RefreshMessage.distribute Sample.sKey1 (Sample.sCoeffs 1)
        (Sample.sRand 1)).points_committed_vec.length = Sample.sKey1.n ∧
     (RefreshMessage.distribute Sample.sKey1 (Sample.sCoeffs 1)
        (Sample.sRand 1)).points_encrypted_vec.length = Sample.sKey1.n ∧
     ∀ j < Sample.sKey1.n,
       (RefreshMessage.distribute Sample.sKey1 (Sample.sCoeffs 1)
          (Sample.sRand 1)).points_committed_vec.getD j ⟨0⟩ =
         Pnt.generatorMul
           ((VerifiableSS.share Sample.sKey1.t Sample.sKey1.n
              Sample.sKey1.keys_additive.u_i (Sample.sCoeffs 1)).2.getD j 0) ∧
       (RefreshMessage.distribute Sample.sKey1 (Sample.sCoeffs 1)
          (Sample.sRand 1)).points_encrypted_vec.getD j ⟨0, 0⟩ =
         paillierEncryptWCR (Sample.sKey1.paillier_key_vec.getD j 0)
           ((VerifiableSS.share Sample.sKey1.t Sample.sKey1.n
              Sample.sKey1.keys_additive.u_i (Sample.sCoeffs 1)).2.getD j 0).val
           (Sample.sRand 1 j)) :=
  ⟨by decide,
   distribute_shape Sample.sKey1 (Sample.sCoeffs 1) (Sample.sRand 1) (by decide)⟩

/-- C10, counterexample: `collect` is not total, and passing the shape check
does not put the fairness loop in bounds.  With `t = 0`, `n = 1`, a single
message whose sequences are all empty passes the quorum check (`1 > 0`), the
shape check (reference length `0`), the duplicate check and the public-share
stage, yet the fairness loop then reads `points_encrypted_vec[0]` of an empty
vector: the Rust code panics (embedded as `none`) instead of returning a key
or a typed error. -/
theorem collect_oob_after_shape_cex :
    firstSizeMismatchAux Sample.cexMsg.fairness_proof_vec.length 0 [Sample.cexMsg] = none ∧
    RefreshMessage.collect [Sample.cexMsg] Sample.cexKey = none := by
  exact ⟨by decide, by decide⟩

/-- C10, amended: `collect` never goes out of bounds — and hence returns
either a refreshed key or a typed error — provided the shape check has passed
with a reference length of at least `n`, the Paillier registry holds at least
`n` keys, and the collector's index satisfies `1 ≤ i ≤ reference length`.
(The unamended claim fails: the shape check alone does not bound the fairness
loop or the `i - 1` extraction, see the counterexample.) -/
theorem collect_total_of_bounds (msgs : List (RefreshMessage q)) (key : LocalKey q)
    (first : RefreshMessage q) (hf : msgs.head? = some first)
    (hs : firstSizeMismatchAux first.fairness_proof_vec.length 0 msgs = none)
    (hnref : key.n ≤ first.fairness_proof_vec.length)
    (hreg : key.n ≤ key.paillier_key_vec.length)
    (hi1 : 1 ≤ key.i) (hi2 : key.i ≤ first.fairness_proof_vec.length) :
    (RefreshMessage.collect msgs key).isSome := by
  by_cases hq : msgs.length ≤ key.t
  · rw [collect_quorum_fail hq]
    rfl
  · have hlen : ∀ m ∈ msgs,
        m.fairness_proof_vec.length = first.fairness_proof_vec.length ∧
        m.points_committed_vec.length = first.fairness_proof_vec.length ∧
        m.points_encrypted_vec.length = first.fairness_proof_vec.length := by
      intro m hm
      exact sizeBad_eq_false_iff.mp (firstSizeMismatchAux_eq_none_iff.mp hs m hm)
    rcases hd : hasDuplicate msgs with _ | _
    · rcases hv : invalidShares first msgs with _ | _
      · have htot : ∀ m ∈ msgs,
            optionAnyList (fairnessFailAt key m) (List.range key.n) ≠ none := by
          intro m hm
          refine optionAnyList_ne_none ?_
          intro i hi
          obtain ⟨h1, h2, h3⟩ := hlen m hm
          have hi' : i < key.n := List.mem_range.mp hi
          rw [fairnessFailAt_eq_some (by omega) (by omega) (by omega) (by omega)]
          exact Option.noConfusion
        rcases hfa : optionAnyList
            (fun m => optionAnyList (fairnessFailAt key m) (List.range key.n)) msgs
            with _ | b
        · exact absurd hfa (optionAnyList_ne_none htot)
        · rcases b with _ | _
          · have hext : extractOwn (key.i - 1) msgs =
                some (msgs.map (fun m => m.points_encrypted_vec.getD (key.i - 1) ⟨0, 0⟩)) := by
              refine extractOwn_eq_some_map ?_
              intro m hm
              obtain ⟨h1, h2, h3⟩ := hlen m hm
              show m.points_encrypted_vec.get? (key.i - 1) =
                some (m.points_encrypted_vec.getD (key.i - 1) ⟨0, 0⟩)
              apply get?_eq_some_getD
              omega
            rw [collect_success hq hf hs hd hv hfa hext]
            rfl
          · rw [collect_fairness_fail hq hf hs hd hv hfa]
            rfl
      · rw [collect_psv_fail hq hf hs hd hv]
        rfl
    · rw [collect_dup_fail hq hf hs hd]
      rfl

theorem collect_total_of_bounds_witness :
    (Sample.sMsgs.head? = some Sample.sMsg1) ∧
    (RefreshMessage.collect Sample.sMsgs Sample.sKey1).isSome :=
  ⟨by decide,
   collect_total_of_bounds Sample.sMsgs Sample.sKey1 Sample.sMsg1
     (by decide) (by decide) (by decide) (by decide) (by decide) (by decide)⟩

end Claims

section C1Math

variable {q : ℕ} [Fact (Nat.Prime q)]

theorem polyEval_eq_eval (l : List (ZMod q)) (x : ZMod q) :
    polyEval l x =
      Polynomial.eval x
        (∑ j in Finset.range l.length, Polynomial.C (l.getD j 0) * Polynomial.X ^ j) := by
  rw [polyEval, Polynomial.eval_finset_sum]
  refine Finset.sum_congr rfl (fun j _ => ?_)
  simp [Polynomial.eval_mul, Polynomial.eval_pow]

theorem degree_listPoly_lt (l : List (ZMod q)) :
    (∑ j in Finset.range l.length,
      Polynomial.C (l.getD j 0) * Polynomial.X ^ j).degree < (l.length : WithBot ℕ) := by
  refine lt_of_le_of_lt (Polynomial.degree_sum_le _ _) ?_
  rw [Finset.sup_lt_iff (by exact WithBot.bot_lt_coe _)]
  intro j hj
  exact lt_of_le_of_lt (Polynomial.degree_C_mul_X_pow_le j _)
    (by exact_mod_cast List.mem_range.mp (by simpa using hj))

theorem polyEval_zero (l : List (ZMod q)) : polyEval l 0 = l.getD 0 0 := by
  rcases l with _ | ⟨a, tl⟩
  · simp [polyEval]
  · rw [polyEval, Finset.sum_eq_single 0]
    · simp
    · intro j _ hj
      simp [zero_pow hj]
    · intro habs
      exact absurd (Finset.mem_range.mpr (Nat.succ_pos _)) habs

theorem lagrange_factor_eq (x y : ZMod q) : y * (y - x)⁻¹ = (x - y)⁻¹ * (0 - y) := by
  have h : y - x = -(x - y) := by ring
  rw [h, inv_neg, mul_neg, zero_sub, mul_neg, mul_comm]

/-- Lagrange reconstruction at `0` of the values of a polynomial of degree
less than the number of pairwise distinct nodes recovers the constant term. -/
theorem lagrangeAt0_eq_eval_zero (f : Polynomial (ZMod q)) (nodes : List (ZMod q))
    (hnd : nodes.Nodup) (hdeg : f.degree < (nodes.length : ℕ)) :
    lagrangeAt0 (nodes.map (fun x => (x, Polynomial.eval x f))) = Polynomial.eval 0 f := by
  set m := nodes.length with hm
  set v : ℕ → ZMod q := fun k => nodes.getD k 0 with hv
  have hvk : ∀ k, (hk : k < nodes.length) → v k = nodes[k] := by
    intro k hk
    show nodes.getD k 0 = nodes[k]
    rw [List.getD_eq_getElem _ _ hk]
  have hget : ∀ k, k < m →
      (nodes.map (fun x => (x, Polynomial.eval x f))).getD k (0, 0) =
        (v k, Polynomial.eval (v k) f) := by
    intro k hk
    have hk2 : k < (nodes.map (fun x => (x, Polynomial.eval x f))).length := by simp [hk]
    rw [List.getD_eq_getElem _ _ hk2, List.getElem_map, hvk k hk]
  have hInj : Set.InjOn v (Finset.range m) := by
    intro a ha b hb hab
    have ha' : a < nodes.length := by simpa using ha
    have hb' : b < nodes.length := by simpa using hb
    rw [hvk a ha', hvk b hb'] at hab
    exact (List.Nodup.getElem_inj_iff hnd).mp hab
  have hcard : f.degree < (Finset.range m).card := by
    rw [Finset.card_range]
    exact hdeg
  have key := Lagrange.eq_interpolate (v := v) hInj hcard
  have hlen : (nodes.map (fun x => (x, Polynomial.eval x f))).length = m := by simp
  calc lagrangeAt0 (nodes.map (fun x => (x, Polynomial.eval x f)))
      = ∑ k in Finset.range m, Polynomial.eval (v k) f *
          ∏ l in (Finset.range m).erase k, (v l * (v l - v k)⁻¹) := by
        rw [lagrangeAt0, hlen]
        refine Finset.sum_congr rfl (fun k hk => ?_)
        have hk' : k < m := Finset.mem_range.mp hk
        rw [hget k hk']
        refine congrArg _ (Finset.prod_congr rfl (fun l hl => ?_))
        have hl' : l < m := Finset.mem_range.mp (Finset.mem_of_mem_erase hl)
        rw [hget l hl']
    _ = Polynomial.eval 0 (Lagrange.interpolate (Finset.range m) v
          (fun k => Polynomial.eval (v k) f)) := by
        rw [Lagrange.interpolate_apply, Polynomial.eval_finset_sum]
        refine Finset.sum_congr rfl (fun k _ => ?_)
        rw [Polynomial.eval_mul, Polynomial.eval_C]
        refine congrArg _ ?_
        rw [Lagrange.basis, Polynomial.eval_prod]
        refine Finset.prod_congr rfl (fun l _ => ?_)
        rw [Lagrange.basisDivisor]
        rw [Polynomial.eval_mul, Polynomial.eval_C, Polynomial.eval_sub, Polynomial.eval_C,
          Polynomial.eval_X]
        exact lagrange_factor_eq (v k) (v l)
    _ = Polynomial.eval 0 f := by rw [← key]

theorem list_range_map_sum {M : Type} [AddCommMonoid M] (f : ℕ → M) (n : ℕ) :
    ((List.range n).map f).sum = ∑ k in Finset.range n, f k := by
  induction n with
  | zero => simp
  | succ n ih =>
    rw [List.range_succ, List.map_append, List.sum_append, Finset.sum_range_succ, ih]
    simp

theorem foldl_paillierAdd_m (N : ℕ) (l : List PaillierCt) (c : PaillierCt) (hc : c.m < N) :
    (l.foldl (fun acc x => paillierAdd N acc x) c).m = (c.m + (l.map PaillierCt.m).sum) % N := by
  induction l generalizing c with
  | nil => simpa using (Nat.mod_eq_of_lt hc).symm
  | cons x tl ih =>
    have hN : 0 < N := by omega
    have hstep : (paillierAdd N c x).m < N := by
      show (c.m + x.m) % N < N
      exact Nat.mod_lt _ hN
    rw [List.foldl_cons, ih _ hstep]
    show ((c.m + x.m) % N + (tl.map PaillierCt.m).sum) % N =
      (c.m + ((x :: tl).map PaillierCt.m).sum) % N
    rw [Nat.mod_add_mod, List.map_cons, List.sum_cons, Nat.add_assoc]

/-- In a ceremony where all `n` dealers distribute honestly over a common
registry `R` whose entries are large enough for the aggregation not to wrap
(`n * q ≤ N`), a successful `collect` by party `p` yields the sum of the `n`
dealers' polynomial evaluations at `p`. -/
theorem ceremony_new_share
    (n p : ℕ) (oldKeys : ℕ → LocalKey q) (coeffs : ℕ → List (ZMod q))
    (rand : ℕ → ℕ → ℕ) (R : List ℕ) (msgs : List (RefreshMessage q)) (newKey : LocalKey q)
    (hmsgs : msgs = (List.range n).map (fun j =>
      RefreshMessage.distribute (oldKeys (j + 1)) (coeffs (j + 1)) (rand (j + 1))))
    (hkeys : ∀ j ∈ List.range n, (oldKeys (j + 1)).n = n ∧
      (oldKeys (j + 1)).paillier_key_vec = R)
    (hp1 : 1 ≤ p) (hp2 : p ≤ n)
    (hip : (oldKeys p).i = p)
    (hek : (oldKeys p).keys_additive.ek = R.getD (p - 1) 0)
    (hdk : (oldKeys p).keys_additive.dk = R.getD (p - 1) 0)
    (hN : n * q ≤ R.getD (p - 1) 0)
    (hsucc : RefreshMessage.collect msgs (oldKeys p) = some (Except.ok newKey)) :
    newKey.keys_linear.x_i =
      ∑ k in Finset.range n,
        polyEval ((oldKeys (k + 1)).keys_additive.u_i :: coeffs (k + 1)) ((p : ℕ) : ZMod q) := by
  haveI : NeZero q := ⟨(Fact.out : Nat.Prime q).ne_zero⟩
  have hq2 : 2 ≤ q := (Fact.out : Nat.Prime q).two_le
  have hn1 : 1 ≤ n := le_trans hp1 hp2
  have hqN : q ≤ R.getD (p - 1) 0 := le_trans (by nlinarith) hN
  have hN0 : 0 < R.getD (p - 1) 0 := by omega
  obtain ⟨-, cts, hext, hnk⟩ := collect_ok_shape hsucc
  rw [hip] at hext
  -- the ciphertext addressed to party p inside dealer j's message
  have hct : ∀ j ∈ List.range n,
      ((fun j => RefreshMessage.distribute (oldKeys (j + 1)) (coeffs (j + 1)) (rand (j + 1))) j
        ).points_encrypted_vec.get? (p - 1) =
      some ⟨(polyEval ((oldKeys (j + 1)).keys_additive.u_i :: coeffs (j + 1))
              ((p : ℕ) : ZMod q)).val,
            rand (j + 1) (p - 1) % R.getD (p - 1) 0⟩ := by
    intro j hj
    obtain ⟨hn, hR⟩ := hkeys j hj
    have hpj : p - 1 < (oldKeys (j + 1)).n := by omega
    rw [distribute_points_encrypted_get _ _ _ hpj]
    rw [vss_share_getD _ _ _ _ (by omega : p - 1 < (oldKeys (j + 1)).n)]
    have hpp : p - 1 + 1 = p := by omega
    rw [hpp, hR]
    show some (paillierEncryptWCR _ _ _) = _
    rw [paillierEncryptWCR]
    have hvlt : (polyEval ((oldKeys (j + 1)).keys_additive.u_i :: coeffs (j + 1))
        ((p : ℕ) : ZMod q)).val < R.getD (p - 1) 0 :=
      lt_of_lt_of_le (ZMod.val_lt _) hqN
    rw [Nat.mod_eq_of_lt hvlt]
  have hext2 : extractOwn (p - 1) msgs =
      some ((List.range n).map (fun j =>
        (⟨(polyEval ((oldKeys (j + 1)).keys_additive.u_i :: coeffs (j + 1))
             ((p : ℕ) : ZMod q)).val,
          rand (j + 1) (p - 1) % R.getD (p - 1) 0⟩ : PaillierCt))) := by
    rw [hmsgs]
    exact extractOwn_map_of_range _ _ _ hct
  rw [hext] at hext2
  have hcts := Option.some.inj hext2
  subst hcts
  rw [hnk]
  show newShareFe (oldKeys p) _ = _
  rw [newShareFe, hek, hdk]
  -- the m-component of the fold
  have henc0 : (paillierEncrypt (R.getD (p - 1) 0) 0).m < R.getD (p - 1) 0 := by
    show 0 % R.getD (p - 1) 0 < R.getD (p - 1) 0
    exact Nat.mod_lt _ hN0
  rw [paillierDecrypt, foldl_paillierAdd_m _ _ _ henc0]
  have h0 : (paillierEncrypt (R.getD (p - 1) 0) 0).m = 0 := Nat.zero_mod _
  rw [h0, Nat.zero_add, List.map_map]
  have hmap : ((List.range n).map (PaillierCt.m ∘ fun j =>
      (⟨(polyEval ((oldKeys (j + 1)).keys_additive.u_i :: coeffs (j + 1))
           ((p : ℕ) : ZMod q)).val,
        rand (j + 1) (p - 1) % R.getD (p - 1) 0⟩ : PaillierCt))) =
      (List.range n).map (fun j =>
        (polyEval ((oldKeys (j + 1)).keys_additive.u_i :: coeffs (j + 1))
          ((p : ℕ) : ZMod q)).val) := rfl
  rw [hmap, list_range_map_sum]
  have hsumlt : (∑ k in Finset.range n,
      (polyEval ((oldKeys (k + 1)).keys_additive.u_i :: coeffs (k + 1))
        ((p : ℕ) : ZMod q)).val) < R.getD (p - 1) 0 := by
    have hle : (∑ k in Finset.range n,
        (polyEval ((oldKeys (k + 1)).keys_additive.u_i :: coeffs (k + 1))
          ((p : ℕ) : ZMod q)).val) ≤ n * (q - 1) := by
      calc (∑ k in Finset.range n,
          (polyEval ((oldKeys (k + 1)).keys_additive.u_i :: coeffs (k + 1))
            ((p : ℕ) : ZMod q)).val)
          ≤ ∑ _k in Finset.range n, (q - 1) :=
            Finset.sum_le_sum (fun k _ => by
              have := ZMod.val_lt (polyEval
                ((oldKeys (k + 1)).keys_additive.u_i :: coeffs (k + 1)) ((p : ℕ) : ZMod q))
              omega)
        _ = n * (q - 1) := by rw [Finset.sum_const, Finset.card_range, smul_eq_mul]
    have : n * (q - 1) < n * q :=
      mul_lt_mul_of_pos_left (by omega : q - 1 < q) (by omega : 0 < n)
    omega
  rw [Nat.mod_eq_of_lt hsumlt, Nat.mod_eq_of_lt hsumlt]
  rw [Nat.cast_sum]
  refine Finset.sum_congr rfl (fun k _ => ?_)
  exact ZMod.natCast_rightInverse _

/-- C1, secret invariance: in a refresh ceremony in which all `n` parties run
`distribute` on their old keys (sharing one Paillier registry, with moduli
large enough that aggregation cannot wrap, and fewer parties than the group
order) and every party runs `collect` successfully over the same broadcast
message list, Lagrange-reconstructing the joint secret from the old linear
shares at any `t + 1` distinct party indices yields the same value as
reconstructing from the corresponding new linear shares at the same indices:
both equal the sum of the parties' additive secrets. -/
theorem secret_invariance
    (t n : ℕ) (oldKeys newKeys : ℕ → LocalKey q) (coeffs : ℕ → List (ZMod q))
    (rand : ℕ → ℕ → ℕ) (R : List ℕ) (msgs : List (RefreshMessage q))
    (oldPoly : List (ZMod q)) (idx : List ℕ)
    (hqn : n < q)
    (hmsgs : msgs = (List.range n).map (fun j =>
      RefreshMessage.distribute (oldKeys (j + 1)) (coeffs (j + 1)) (rand (j + 1))))
    (hparams : ∀ j ∈ List.range n, (oldKeys (j + 1)).n = n ∧ (oldKeys (j + 1)).i = j + 1 ∧
      (oldKeys (j + 1)).paillier_key_vec = R ∧
      (oldKeys (j + 1)).keys_additive.ek = R.getD j 0 ∧
      (oldKeys (j + 1)).keys_additive.dk = R.getD j 0 ∧
      n * q ≤ R.getD j 0 ∧ (coeffs (j + 1)).length = t)
    (hsucc : ∀ j ∈ List.range n,
      RefreshMessage.collect msgs (oldKeys (j + 1)) = some (Except.ok (newKeys (j + 1))))
    (holdlen : oldPoly.length = t + 1)
    (hold : ∀ j ∈ List.range n,
      (oldKeys (j + 1)).keys_linear.x_i = polyEval oldPoly ((j + 1 : ℕ) : ZMod q))
    (hold0 : polyEval oldPoly 0 = ∑ j in Finset.range n, (oldKeys (j + 1)).keys_additive.u_i)
    (hidxlen : idx.length = t + 1) (hidxnd : idx.Nodup)
    (hidxmem : ∀ p ∈ idx, 1 ≤ p ∧ p ≤ n) :
    lagrangeAt0 (idx.map (fun p => (((p : ℕ) : ZMod q), (oldKeys p).keys_linear.x_i))) =
      lagrangeAt0 (idx.map (fun p => (((p : ℕ) : ZMod q), (newKeys p).keys_linear.x_i))) := by
  haveI : NeZero q := ⟨(Fact.out : Nat.Prime q).ne_zero⟩
  have hnew : ∀ p ∈ idx, (newKeys p).keys_linear.x_i =
      ∑ k in Finset.range n,
        polyEval ((oldKeys (k + 1)).keys_additive.u_i :: coeffs (k + 1)) ((p : ℕ) : ZMod q) := by
    intro p hp
    obtain ⟨hp1, hp2⟩ := hidxmem p hp
    have hpj : p - 1 ∈ List.range n := List.mem_range.mpr (by omega)
    obtain ⟨hn, hi, hR, hek, hdk, hNp, hclen⟩ := hparams (p - 1) hpj
    have hpp : p - 1 + 1 = p := by omega
    rw [hpp] at hi hek hdk
    have hsp := hsucc (p - 1) hpj
    rw [hpp] at hsp
    exact ceremony_new_share n p oldKeys coeffs rand R msgs (newKeys p)
      hmsgs (fun j hj => ⟨(hparams j hj).1, (hparams j hj).2.2.1⟩) hp1 hp2 hi hek hdk hNp hsp
  set fold : Polynomial (ZMod q) := ∑ j in Finset.range oldPoly.length,
      Polynomial.C (oldPoly.getD j 0) * Polynomial.X ^ j with hfold
  set gnew : Polynomial (ZMod q) := ∑ k in Finset.range n,
      ∑ j in Finset.range ((oldKeys (k + 1)).keys_additive.u_i :: coeffs (k + 1)).length,
        Polynomial.C (((oldKeys (k + 1)).keys_additive.u_i :: coeffs (k + 1)).getD j 0) *
          Polynomial.X ^ j with hgnew
  have hgeval : ∀ x : ZMod q, Polynomial.eval x gnew =
      ∑ k in Finset.range n,
        polyEval ((oldKeys (k + 1)).keys_additive.u_i :: coeffs (k + 1)) x := by
    intro x
    rw [hgnew, Polynomial.eval_finset_sum]
    exact Finset.sum_congr rfl (fun k _ => (polyEval_eq_eval _ x).symm)
  set nodes : List (ZMod q) := idx.map (fun p => ((p : ℕ) : ZMod q)) with hnodes
  have hnodeslen : nodes.length = t + 1 := by rw [hnodes, List.length_map, hidxlen]
  have hnodesnd : nodes.Nodup := by
    rw [hnodes]
    refine List.Nodup.map_on ?_ hidxnd
    intro a ha b hb hab
    have ha2 : a < q := lt_of_le_of_lt (hidxmem a ha).2 hqn
    have hb2 : b < q := lt_of_le_of_lt (hidxmem b hb).2 hqn
    have hv := congrArg ZMod.val hab
    rwa [ZMod.val_cast_of_lt ha2, ZMod.val_cast_of_lt hb2] at hv
  have hmapold : idx.map (fun p => (((p : ℕ) : ZMod q), (oldKeys p).keys_linear.x_i)) =
      nodes.map (fun x => (x, Polynomial.eval x fold)) := by
    rw [hnodes, List.map_map]
    refine List.map_congr_left (fun p hp => ?_)
    obtain ⟨hp1, hp2⟩ := hidxmem p hp
    have hpj : p - 1 ∈ List.range n := List.mem_range.mpr (by omega)
    have hpp : p - 1 + 1 = p := by omega
    have hx := hold (p - 1) hpj
    rw [hpp] at hx
    show (((p : ℕ) : ZMod q), (oldKeys p).keys_linear.x_i) =
      (((p : ℕ) : ZMod q), Polynomial.eval ((p : ℕ) : ZMod q) fold)
    rw [hx, hfold, polyEval_eq_eval]
  have hmapnew : idx.map (fun p => (((p : ℕ) : ZMod q), (newKeys p).keys_linear.x_i)) =
      nodes.map (fun x => (x, Polynomial.eval x gnew)) := by
    rw [hnodes, List.map_map]
    refine List.map_congr_left (fun p hp => ?_)
    show (((p : ℕ) : ZMod q), (newKeys p).keys_linear.x_i) =
      (((p : ℕ) : ZMod q), Polynomial.eval ((p : ℕ) : ZMod q) gnew)
    rw [hnew p hp, hgeval]
  have hdegold : fold.degree < (nodes.length : WithBot ℕ) := by
    rw [hnodeslen, hfold, ← holdlen]
    exact degree_listPoly_lt oldPoly
  have hdegnew : gnew.degree < (nodes.length : WithBot ℕ) := by
    rw [hnodeslen, hgnew]
    refine lt_of_le_of_lt (Polynomial.degree_sum_le _ _) ?_
    rw [Finset.sup_lt_iff (WithBot.bot_lt_coe _)]
    intro k hk
    have hclen := (hparams k (List.mem_range.mpr (Finset.mem_range.mp hk))).2.2.2.2.2.2
    have hd := degree_listPoly_lt ((oldKeys (k + 1)).keys_additive.u_i :: coeffs (k + 1))
    have hlen2 : ((((oldKeys (k + 1)).keys_additive.u_i :: coeffs (k + 1)).length : ℕ) :
        WithBot ℕ) = ((t + 1 : ℕ) : WithBot ℕ) := by
      rw [List.length_cons, hclen]
    exact lt_of_lt_of_le hd (le_of_eq hlen2)
  rw [hmapold, hmapnew,
    lagrangeAt0_eq_eval_zero fold nodes hnodesnd hdegold,
    lagrangeAt0_eq_eval_zero gnew nodes hnodesnd hdegnew]
  have hold0' : Polynomial.eval 0 fold =
      ∑ j in Finset.range n, (oldKeys (j + 1)).keys_additive.u_i := by
    rw [hfold, ← polyEval_eq_eval, hold0]
  have hnew0 : Polynomial.eval 0 gnew =
      ∑ k in Finset.range n, (oldKeys (k + 1)).keys_additive.u_i := by
    rw [hgeval 0]
    exact Finset.sum_congr rfl (fun k _ => by rw [polyEval_zero]; exact List.getD_cons_zero)
  rw [hold0', hnew0]

theorem secret_invariance_witness :
    (∀ j ∈ List.range 2, RefreshMessage.collect Sample.sMsgs (Sample.sOldKeys (j + 1)) =
      some (Except.ok (Sample.sNewKeys (j + 1)))) ∧
    lagrangeAt0 (([1, 2] : List ℕ).map (fun p =>
      (((p : ℕ) : ZMod 11), (Sample.sOldKeys p).keys_linear.x_i))) =
    lagrangeAt0 (([1, 2] : List ℕ).map (fun p =>
      (((p : ℕ) : ZMod 11), (Sample.sNewKeys p).keys_linear.x_i))) :=
  ⟨by decide,
   secret_invariance 1 2 Sample.sOldKeys Sample.sNewKeys Sample.sCoeffs Sample.sRand
     [50, 60] Sample.sMsgs Sample.sOldPoly [1, 2]
     (by decide) (by decide) (by decide) (by decide) (by decide) (by decide) (by decide)
     (by decide) (by decide) (by decide)⟩

end C1Math

end FsDkr
